import Mathlib

/-!
Shallow embedding of the go-trie repository (wwwjscom/go-trie).

`src/trie.go` implements a generic trie keyed by Unicode runes
(`Trie`: fields `leaf`, `value`, `children map[rune]*Trie`) with
operations `AddString`, `AddValue`, `Remove`, `Contains`, `GetValue`,
`Members`, `Size`, `AllSubstrings`, `AllSubstringsAndValues`.
`src/value_trie.go` implements `ValueTrie`, a trie whose every node
carries an `int` weight, fed by the TeX-pattern decoder
`AddPatternString`.

Modelling decisions:
* Go strings ranged with `for _, r := range s` yield runes; we model a
  string as `List Char` (a Lean `Char` is a Unicode scalar value, the
  same as a Go rune).
* The Go `map[rune]*Trie` is modelled as an association list
  `List (Char × Trie α)`; map lookup, assignment and `delete` become
  first-occurrence lookup, replace-or-append, and first-occurrence
  removal.  Reachable tries have distinct keys, so this is faithful;
  map iteration order is arbitrary in Go, here it is list order (the
  only iteration-order-dependent result, `Members`, is sorted before
  being returned, so the order of children does not show).
* Go's `interface{}` value (default `nil`) is `Option α` (default
  `none`).
* Mutation is modelled by returning the updated trie.
-/

/-- The node type of `src/trie.go`: `leaf` flag, optional `value`,
and children keyed by rune. -/
inductive Trie (α : Type) : Type where
  | node (leaf : Bool) (value : Option α) (children : List (Char × Trie α)) : Trie α
deriving Repr

/-- Field accessor for the `leaf` flag. -/
def Trie.leaf {α : Type} : Trie α → Bool
  | .node l _ _ => l

/-- Field accessor for the `value` field. -/
def Trie.value {α : Type} : Trie α → Option α
  | .node _ v _ => v

/-- Field accessor for the `children` map. -/
def Trie.children {α : Type} : Trie α → List (Char × Trie α)
  | .node _ _ cs => cs

/-- `p.children[r]` — Go map lookup (`nil` when absent becomes `none`). -/
def lookupChild {α : Type} : List (Char × Trie α) → Char → Option (Trie α)
  | [], _ => none
  | (k, t) :: rest, c => if k = c then some t else lookupChild rest c

/-- `p.children[r] = n` — Go map assignment: replace the entry if the key
is present, otherwise add it. -/
def setChild {α : Type} : List (Char × Trie α) → Char → Trie α → List (Char × Trie α)
  | [], c, n => [(c, n)]
  | (k, t) :: rest, c, n => if k = c then (c, n) :: rest else (k, t) :: setChild rest c n

/-- `delete(p.children, r)` — Go map deletion. -/
def removeChild {α : Type} : List (Char × Trie α) → Char → List (Char × Trie α)
  | [], _ => []
  | (k, t) :: rest, c => if k = c then rest else (k, t) :: removeChild rest c

/-- `NewTrie()`: leaf false, value nil, empty child map. -/
def NewTrie {α : Type} : Trie α :=
  .node false none []

/-- `(*Trie).addRunes` (trie.go:65-80): walks the runes, creating missing
children, and marks the final node as a leaf.  (The Go function also
returns the final node; `AddValue` is embedded separately as
`addRunesValue` with the caller's `leaf.value = v` fused in.) -/
def addRunes {α : Type} : Trie α → List Char → Trie α
  | .node _ v cs, [] => .node true v cs
  | .node l v cs, c :: rest =>
      let n := (lookupChild cs c).getD NewTrie
      .node l v (setChild cs c (addRunes n rest))

/-- `(*Trie).AddValue` = `addRunes` followed by `leaf.value = v` on the
returned final node (trie.go:95-103), fused into one walk. -/
def addRunesValue {α : Type} (w : α) : Trie α → List Char → Trie α
  | .node _ _ cs, [] => .node true (some w) cs
  | .node l v cs, c :: rest =>
      let n := (lookupChild cs c).getD NewTrie
      .node l v (setChild cs c (addRunesValue w n rest))

/-- `(*Trie).AddString` (trie.go:84-91): empty strings are ignored. -/
def AddString {α : Type} (p : Trie α) (s : List Char) : Trie α :=
  if s = [] then p else addRunes p s

/-- `(*Trie).AddValue` (trie.go:95-103): empty strings are ignored. -/
def AddValue {α : Type} (p : Trie α) (s : List Char) (v : α) : Trie α :=
  if s = [] then p else addRunesValue v p s

/-- `(*Trie).removeRunes` (trie.go:106-122).  Returns the updated node
together with the Go return value `len(p.children) == 0`.  Note the
pruning test is `child.removeRunes(r)` alone: the child is pruned
whenever it reports an empty child map, with no test of its leaf flag. -/
def removeRunes {α : Type} : Trie α → List Char → Trie α × Bool
  | .node _ _ cs, [] =>
      -- remove value, remove leaf flag
      (.node false none cs, cs.isEmpty)
  | .node l v cs, c :: rest =>
      match lookupChild cs c with
      | none => (.node l v cs, cs.isEmpty)
      | some child =>
          let r := removeRunes child rest
          let cs' := if r.2 then removeChild cs c else setChild cs c r.1
          (.node l v cs', cs'.isEmpty)

/-- `(*Trie).Remove` (trie.go:125-132): for the empty string, reports
whether the root has no children, without touching the trie. -/
def Remove {α : Type} (p : Trie α) (s : List Char) : Trie α × Bool :=
  if s = [] then (p, p.children.isEmpty) else removeRunes p s

/-- `(*Trie).includes` (trie.go:135-151): returns the final node when the
whole string is traced and that node is a leaf, `none` otherwise. -/
def includes {α : Type} : Trie α → List Char → Option (Trie α)
  | t, [] => if t.leaf then some t else none
  | t, c :: rest =>
      match lookupChild t.children c with
      | none => none
      | some child => includes child rest

/-- `(*Trie).Contains` (trie.go:154-159): empty strings are never
contained. -/
def Contains {α : Type} (p : Trie α) (s : List Char) : Bool :=
  if s = [] then false else (includes p s).isSome

/-- `(*Trie).GetValue` (trie.go:164-174): double return `(value, found)`. -/
def GetValue {α : Type} (p : Trie α) (s : List Char) : Option α × Bool :=
  if s = [] then (none, false)
  else
    match includes p s with
    | none => (none, false)
    | some leafNode => (leafNode.value, true)

mutual

/-- `(*Trie).buildMembers` (trie.go:177-192): the prefix itself when this
node is a leaf, followed by the members below each child. -/
def buildMembers {α : Type} : Trie α → List Char → List (List Char)
  | .node l _ cs, pre => (if l then [pre] else []) ++ buildMembersList cs pre

/-- The `for r, child := range p.children` loop body of `buildMembers`. -/
def buildMembersList {α : Type} : List (Char × Trie α) → List Char → List (List Char)
  | [], _ => []
  | (c, t) :: rest, pre => buildMembers t (pre ++ [c]) ++ buildMembersList rest pre

end

/-- Go `sort.Strings` order: strings compare byte-lexicographically, which
for valid UTF-8 coincides with code-point-lexicographic order. -/
def lexLe : List Char → List Char → Bool
  | [], _ => true
  | _ :: _, [] => false
  | a :: r1, b :: r2 => if a = b then lexLe r1 r2 else decide (a < b)

/-- Insert into a `lexLe`-sorted list. -/
def insertSorted (x : List Char) : List (List Char) → List (List Char)
  | [] => [x]
  | y :: rest => if lexLe x y then x :: y :: rest else y :: insertSorted x rest

/-- Sorting of the member list (`sort.Strings` in trie.go:197). -/
def sortStrings : List (List Char) → List (List Char)
  | [] => []
  | x :: rest => insertSorted x (sortStrings rest)

/-- `(*Trie).Members` (trie.go:195-199). -/
def Members {α : Type} (p : Trie α) : List (List Char) :=
  sortStrings (buildMembers p [])

mutual

/-- `(*Trie).Size` (trie.go:203-211): the number of children plus the
sizes of all child subtries. -/
def Size {α : Type} : Trie α → Nat
  | .node _ _ cs => cs.length + SizeList cs

/-- The `for _, child := range p.children` loop body of `Size`. -/
def SizeList {α : Type} : List (Char × Trie α) → Nat
  | [] => 0
  | (_, t) :: rest => Size t + SizeList rest

end

/-- `(*Trie).AllSubstrings` (trie.go:215-234), with `pre` the already
consumed characters `s[0:pos]`.  Note the Go code appends `s[0:pos]`,
the query up to but *excluding* the rune just matched. -/
def allSubAux {α : Type} : Trie α → List Char → List Char → List (List Char)
  | _, [], _ => []
  | t, c :: rest, pre =>
      match lookupChild t.children c with
      | none => []
      | some child =>
          (if child.leaf then [pre] else []) ++ allSubAux child rest (pre ++ [c])

/-- `(*Trie).AllSubstrings` (trie.go:215-234). -/
def AllSubstrings {α : Type} (p : Trie α) (s : List Char) : List (List Char) :=
  allSubAux p s []

/-- `(*Trie).AllSubstringsAndValues` (trie.go:238-259), with `pre` the
already consumed characters.  Here the Go code appends
`s[0:pos+utf8.RuneLen(rune)]`, the query up to and *including* the rune
just matched, together with the matching node's value. -/
def allSubValAux {α : Type} : Trie α → List Char → List Char →
    List (List Char) × List (Option α)
  | _, [], _ => ([], [])
  | t, c :: rest, pre =>
      match lookupChild t.children c with
      | none => ([], [])
      | some child =>
          let r := allSubValAux child rest (pre ++ [c])
          if child.leaf then ((pre ++ [c]) :: r.1, child.value :: r.2) else r

/-- `(*Trie).AllSubstringsAndValues` (trie.go:238-259). -/
def AllSubstringsAndValues {α : Type} (p : Trie α) (s : List Char) :
    List (List Char) × List (Option α) :=
  allSubValAux p s []

/-- The node type of `src/value_trie.go` (`ValueTrie`): like `Trie`, but
every node carries an `int` weight, default `0`. -/
inductive VTrie : Type where
  | node (leaf : Bool) (value : Int) (children : List (Char × VTrie)) : VTrie
deriving Repr

/-- Field accessor for the `leaf` flag. -/
def VTrie.leaf : VTrie → Bool
  | .node l _ _ => l

/-- Field accessor for the `value` weight. -/
def VTrie.value : VTrie → Int
  | .node _ v _ => v

/-- Field accessor for the `children` map. -/
def VTrie.children : VTrie → List (Char × VTrie)
  | .node _ _ cs => cs

/-- `p.children[r]` — Go map lookup for `ValueTrie`. -/
def VTrie.lookupChild : List (Char × VTrie) → Char → Option VTrie
  | [], _ => none
  | (k, t) :: rest, c => if k = c then some t else VTrie.lookupChild rest c

/-- `p.children[r] = n` — Go map assignment for `ValueTrie`. -/
def VTrie.setChild : List (Char × VTrie) → Char → VTrie → List (Char × VTrie)
  | [], c, n => [(c, n)]
  | (k, t) :: rest, c, n =>
      if k = c then (c, n) :: rest else (k, t) :: VTrie.setChild rest c n

/-- `NewValueTrie()` (value_trie.go:59-65). -/
def NewValueTrie : VTrie :=
  .node false 0 []

/-- `val := <-iter` — in the 2010-era Go of value_trie.go, a receive from
a closed (exhausted) channel yields the zero value, so the weight channel
is a list read with default `0`. -/
def chanRead : List Int → Int × List Int
  | [] => (0, [])
  | v :: rest => (v, rest)

/-- `(*ValueTrie).addRunes` (value_trie.go:68-87): a weight is read from
the channel for every rune consumed, but is stored only when the child
node is freshly created (`if n == nil { n = NewValueTrie(); n.value = val; ... }`);
an existing child keeps its old weight. -/
def VTrie.addRunes : VTrie → List Char → List Int → VTrie
  | .node _ v cs, [], _ => .node true v cs
  | .node l v cs, c :: rest, ws =>
      let r := chanRead ws
      match VTrie.lookupChild cs c with
      | some n => .node l v (VTrie.setChild cs c (VTrie.addRunes n rest r.2))
      | none =>
          .node l v (VTrie.setChild cs c (VTrie.addRunes (.node false r.1 []) rest r.2))

/-- Test `rune0 <= rune && rune <= rune9` of value_trie.go. -/
def isDigitRune (c : Char) : Bool :=
  decide ('0' ≤ c) && decide (c ≤ '9')

/-- The weight-producing goroutine of `AddPatternString`
(value_trie.go:107-134), reproduced at rune level.  Digit runes are
skipped outright (hence a digit that precedes the first character is
never emitted).  For a non-digit rune the Go code peeks at the byte
`s[pos+1]` under the guard `pos < len(s)-1`: for a rune of UTF-8 width 1
that byte is the first byte of the next rune, which is an ASCII digit
byte exactly when the next rune is an ASCII digit; for a wider rune it is
one of the rune's own continuation bytes (never a digit, weight 0), and
the guard fails only when the rune is a width-1 final rune (nothing
emitted). -/
def patternWeights : List Char → List Int
  | [] => []
  | c :: rest =>
      if isDigitRune c then patternWeights rest
      else if c.utf8Size = 1 then
        match rest with
        | [] => []
        | c' :: _ =>
            (if isDigitRune c' then ((c'.toNat : Int) - 48) else 0) :: patternWeights rest
      else 0 :: patternWeights rest

/-- The `strings.Map` call of `AddPatternString` (value_trie.go:136-142):
drop every digit rune, keep the rest. -/
def pureChars (s : List Char) : List Char :=
  s.filter (fun c => !isDigitRune c)

/-- `(*ValueTrie).AddPatternString` (value_trie.go:101-145): feed the
digit-free string and the decoded weight stream into `addRunes`. -/
def VTrie.AddPatternString (p : VTrie) (s : List Char) : VTrie :=
  VTrie.addRunes p (pureChars s) (patternWeights s)

/-- The node reached from `p` by consuming the given runes — the Go node
pointer `p.children[c0].children[c1]...`. -/
def VTrie.nodeAt : VTrie → List Char → Option VTrie
  | t, [] => some t
  | t, c :: rest =>
      match VTrie.lookupChild t.children c with
      | none => none
      | some child => VTrie.nodeAt child rest

/-- Modelled from the spec: `src/value_trie.go` has no `GetValue`; the
spec's §4.1 `GetValue` and §8 round-trip ("decoding then calling
`GetValue` returns weights ...") read back, for a stored string, the
weight carried by each node along its path (§3: "one weight per character
of the stored string, aligned positionally"; §4.2: "each node on the path
receives the weight for the character that was consumed to reach it").
Returns `none` unless the full path exists and ends at a terminal node. -/
def VTrie.getWeights : VTrie → List Char → Option (List Int)
  | t, [] => if t.leaf then some [] else none
  | t, c :: rest =>
      match VTrie.lookupChild t.children c with
      | none => none
      | some child =>
          match VTrie.getWeights child rest with
          | none => none
          | some ws => some (child.value :: ws)

/-- The number of leading runes of `s` that `addRunes` traverses through
already existing children (the node-creating part of the walk is the
rest). -/
def walk {α : Type} : Trie α → List Char → Nat
  | _, [] => 0
  | t, c :: rest =>
      match lookupChild t.children c with
      | none => 0
      | some child => 1 + walk child rest

/-- The length of the longest common prefix of two rune sequences. -/
def lcpLength : List Char → List Char → Nat
  | a :: r1, b :: r2 => if a = b then 1 + lcpLength r1 r2 else 0
  | _, _ => 0

mutual

/-- The number of nodes of a trie, the root included. -/
def totalNodes {α : Type} : Trie α → Nat
  | .node _ _ cs => 1 + totalNodesList cs

/-- The total number of nodes of a list of subtries. -/
def totalNodesList {α : Type} : List (Char × Trie α) → Nat
  | [] => 0
  | (_, t) :: rest => totalNodes t + totalNodesList rest

end

/-- The number of distinct nodes strictly below the root. -/
def nodesBelowRoot {α : Type} (t : Trie α) : Nat :=
  totalNodesList t.children

/-- A weighted trie holding the decoded pattern `he2n` (so the node for
the prefix `he` carries weight 2). -/
def vt10 : VTrie :=
  VTrie.AddPatternString NewValueTrie "he2n".toList

/-- The node of `vt10` reached by the prefix `he`. -/
def vnode10 : VTrie :=
  (VTrie.nodeAt vt10 "he".toList).getD NewValueTrie

/-! Association-list lemmas for the child maps. -/

theorem lookupChild_setChild_self {α : Type} (cs : List (Char × Trie α)) (c : Char)
    (n : Trie α) : lookupChild (setChild cs c n) c = some n := by
  induction cs with
  | nil => simp [setChild, lookupChild]
  | cons p rest ih =>
      obtain ⟨k, t⟩ := p
      by_cases h : k = c <;> simp [setChild, lookupChild, h, ih]

theorem lookupChild_setChild_ne {α : Type} (cs : List (Char × Trie α)) (a c : Char)
    (n : Trie α) (hne : a ≠ c) :
    lookupChild (setChild cs c n) a = lookupChild cs a := by
  induction cs with
  | nil => simp [setChild, lookupChild, Ne.symm hne]
  | cons p rest ih =>
      obtain ⟨k, t⟩ := p
      by_cases h : k = c
      · subst h
        simp [setChild, lookupChild, Ne.symm hne]
      · by_cases h2 : k = a <;> simp [setChild, lookupChild, h, h2, ih, hne]

theorem mem_of_lookupChild {α : Type} (cs : List (Char × Trie α)) (c : Char) (t : Trie α)
    (h : lookupChild cs c = some t) : (c, t) ∈ cs := by
  induction cs with
  | nil => simp [lookupChild] at h
  | cons p rest ih =>
      obtain ⟨k, u⟩ := p
      by_cases hk : k = c
      · subst hk
        simp [lookupChild] at h
        simp [h]
      · simp [lookupChild, hk] at h
        exact List.mem_cons_of_mem _ (ih h)

/-! Frame lemmas for insertion: `addRunes` and `addRunesValue` disturb no
node off the inserted path, and on the path they only set the final
node's leaf flag (and, for `addRunesValue`, the final node's value). -/

theorem includes_addRunes_frame {α : Type} :
    ∀ (w s : List Char) (t n : Trie α), includes t w = some n →
      ∃ n', includes (addRunes t s) w = some n' ∧ (w ≠ s → n'.value = n.value)
  | [], s, t, n => by
      intro h
      obtain ⟨l, v, cs⟩ := t
      simp [includes, Trie.leaf] at h
      obtain ⟨hl, hn⟩ := h
      subst hl
      cases s with
      | nil =>
          exact ⟨.node true v cs, by simp [addRunes, includes, Trie.leaf], by simp⟩
      | cons c s' =>
          refine ⟨.node true v (setChild cs c (addRunes ((lookupChild cs c).getD NewTrie) s')),
            by simp [addRunes, includes, Trie.leaf], ?_⟩
          intro _
          simp [Trie.value, ← hn]
  | a :: w', s, t, n => by
      intro h
      obtain ⟨l, v, cs⟩ := t
      simp only [includes, Trie.children] at h
      cases hl : lookupChild cs a with
      | none => simp [hl] at h
      | some child =>
          rw [hl] at h
          simp only at h
          cases s with
          | nil =>
              exact ⟨n, by simp [addRunes, includes, Trie.children, hl, h], by simp [h]⟩
          | cons c s' =>
              by_cases hac : a = c
              · subst hac
                have ⟨n', hn', hv⟩ := includes_addRunes_frame w' s' child n h
                refine ⟨n', ?_, ?_⟩
                · simp only [addRunes, includes, Trie.children]
                  rw [lookupChild_setChild_self, hl]
                  simpa using hn'
                · intro hne
                  exact hv (by intro he; exact hne (by rw [he]))
              · refine ⟨n, ?_, by simp⟩
                simp only [addRunes, includes, Trie.children]
                rw [lookupChild_setChild_ne _ _ _ _ hac, hl]
                simpa using h

theorem includes_addRunesValue_frame {α : Type} (v₀ : α) :
    ∀ (w s : List Char) (t n : Trie α), includes t w = some n →
      ∃ n', includes (addRunesValue v₀ t s) w = some n' ∧ (w ≠ s → n'.value = n.value)
  | [], s, t, n => by
      intro h
      obtain ⟨l, v, cs⟩ := t
      simp [includes, Trie.leaf] at h
      obtain ⟨hl, hn⟩ := h
      subst hl
      cases s with
      | nil =>
          exact ⟨.node true (some v₀) cs, by simp [addRunesValue, includes, Trie.leaf],
            by simp⟩
      | cons c s' =>
          refine ⟨.node true v
            (setChild cs c (addRunesValue v₀ ((lookupChild cs c).getD NewTrie) s')),
            by simp [addRunesValue, includes, Trie.leaf], ?_⟩
          intro _
          simp [Trie.value, ← hn]
  | a :: w', s, t, n => by
      intro h
      obtain ⟨l, v, cs⟩ := t
      simp only [includes, Trie.children] at h
      cases hl : lookupChild cs a with
      | none => simp [hl] at h
      | some child =>
          rw [hl] at h
          simp only at h
          cases s with
          | nil =>
              exact ⟨n, by simp [addRunesValue, includes, Trie.children, hl, h], by simp [h]⟩
          | cons c s' =>
              by_cases hac : a = c
              · subst hac
                have ⟨n', hn', hv⟩ := includes_addRunesValue_frame v₀ w' s' child n h
                refine ⟨n', ?_, ?_⟩
                · simp only [addRunesValue, includes, Trie.children]
                  rw [lookupChild_setChild_self, hl]
                  simpa using hn'
                · intro hne
                  exact hv (by intro he; exact hne (by rw [he]))
              · refine ⟨n, ?_, by simp⟩
                simp only [addRunesValue, includes, Trie.children]
                rw [lookupChild_setChild_ne _ _ _ _ hac, hl]
                simpa using h

/-- Inserting a string makes its own path traceable to a leaf. -/
theorem includes_addRunes_self {α : Type} :
    ∀ (s : List Char) (t : Trie α), ∃ n, includes (addRunes t s) s = some n
  | [], t => by
      obtain ⟨l, v, cs⟩ := t
      exact ⟨.node true v cs, by simp [addRunes, includes, Trie.leaf]⟩
  | c :: s', t => by
      obtain ⟨l, v, cs⟩ := t
      have ⟨n, hn⟩ := includes_addRunes_self s' ((lookupChild cs c).getD NewTrie)
      refine ⟨n, ?_⟩
      simp only [addRunes, includes, Trie.children]
      rw [lookupChild_setChild_self]
      simpa using hn

/-! Enumeration lemmas: a string whose path ends at a leaf is produced by
`buildMembers`, and sorting does not change list membership. -/

theorem mem_buildMembersList_of_mem {α : Type} :
    ∀ (cs : List (Char × Trie α)) (c : Char) (t : Trie α) (pre x : List Char),
      (c, t) ∈ cs → x ∈ buildMembers t (pre ++ [c]) → x ∈ buildMembersList cs pre
  | [], c, t, pre, x => by
      intro hmem _
      simp at hmem
  | (k, u) :: rest, c, t, pre, x => by
      intro hmem hx
      simp only [buildMembersList, List.mem_append]
      rcases List.mem_cons.mp hmem with heq | htail
      · obtain ⟨hk, hu⟩ := Prod.mk.injEq .. ▸ heq
        left
        rw [← hk, ← hu] at *
        simpa using hx
      · right
        exact mem_buildMembersList_of_mem rest c t pre x htail hx

theorem mem_buildMembers_of_includes {α : Type} :
    ∀ (s : List Char) (t : Trie α) (pre : List Char) (n : Trie α),
      includes t s = some n → (pre ++ s) ∈ buildMembers t pre
  | [], t, pre, n => by
      intro h
      obtain ⟨l, v, cs⟩ := t
      simp [includes, Trie.leaf] at h
      simp [buildMembers, h.1]
  | a :: s', t, pre, n => by
      intro h
      obtain ⟨l, v, cs⟩ := t
      simp only [includes, Trie.children] at h
      cases hl : lookupChild cs a with
      | none => simp [hl] at h
      | some child =>
          rw [hl] at h
          simp only at h
          have hmem := mem_of_lookupChild cs a child hl
          have hin := mem_buildMembers_of_includes s' child (pre ++ [a]) n h
          have : (pre ++ a :: s') ∈ buildMembersList cs pre := by
            have := mem_buildMembersList_of_mem cs a child pre ((pre ++ [a]) ++ s') hmem hin
            simpa using this
          simp only [buildMembers, List.mem_append]
          right
          exact this

theorem mem_insertSorted (x y : List Char) (l : List (List Char)) :
    y ∈ insertSorted x l ↔ y ∈ x :: l := by
  induction l with
  | nil => simp [insertSorted]
  | cons z rest ih =>
      by_cases h : lexLe x z = true
      · simp [insertSorted, h]
      · simp only [insertSorted]
        rw [if_neg h]
        simp only [List.mem_cons, ih]
        tauto

theorem mem_sortStrings (x : List Char) (l : List (List Char)) :
    x ∈ sortStrings l ↔ x ∈ l := by
  induction l with
  | nil => simp [sortStrings]
  | cons z rest ih =>
      simp only [sortStrings, mem_insertSorted, List.mem_cons, ih]

/-! Size lemmas: node counting, and the node count produced by inserting
strings. -/

theorem SizeList_setChild_present {α : Type} :
    ∀ (cs : List (Char × Trie α)) (c : Char) (t n : Trie α),
      lookupChild cs c = some t →
      (setChild cs c n).length = cs.length ∧
        SizeList (setChild cs c n) + Size t = SizeList cs + Size n
  | [], c, t, n => by intro h; simp [lookupChild] at h
  | (k, u) :: rest, c, t, n => by
      intro h
      by_cases hk : k = c
      · subst hk
        simp [lookupChild] at h
        subst h
        simp [setChild, SizeList]
        omega
      · simp [lookupChild, hk] at h
        have ih := SizeList_setChild_present rest c t n h
        simp [setChild, hk, SizeList]
        omega

theorem setChild_absent {α : Type} :
    ∀ (cs : List (Char × Trie α)) (c : Char) (n : Trie α),
      lookupChild cs c = none → setChild cs c n = cs ++ [(c, n)]
  | [], c, n => by intro _; simp [setChild]
  | (k, u) :: rest, c, n => by
      intro h
      by_cases hk : k = c
      · simp [lookupChild, hk] at h
      · simp [lookupChild, hk] at h
        simp [setChild, hk, setChild_absent rest c n h]

theorem SizeList_append {α : Type} :
    ∀ (cs ds : List (Char × Trie α)), SizeList (cs ++ ds) = SizeList cs + SizeList ds
  | [], ds => by simp [SizeList]
  | (k, u) :: rest, ds => by
      simp [SizeList, SizeList_append rest ds]
      omega

theorem Size_addRunes_empty {α : Type} :
    ∀ (s : List Char), Size (addRunes (NewTrie (α := α)) s) = s.length
  | [] => by simp [NewTrie, addRunes, Size, SizeList]
  | c :: s' => by
      simp only [NewTrie, addRunes, lookupChild, setChild, Option.getD, Size, SizeList]
      have := Size_addRunes_empty (α := α) s'
      simp [NewTrie] at this
      simp [this]
      omega

theorem Size_addRunes {α : Type} :
    ∀ (s : List Char) (t : Trie α), Size (addRunes t s) + walk t s = Size t + s.length
  | [], t => by
      obtain ⟨l, v, cs⟩ := t
      simp [addRunes, walk, Size]
  | c :: s', t => by
      obtain ⟨l, v, cs⟩ := t
      cases hl : lookupChild cs c with
      | some child =>
          have ih := Size_addRunes s' child
          have hset := SizeList_setChild_present cs c child (addRunes child s') hl
          simp only [addRunes, walk, Trie.children, hl, Option.getD, Size, List.length_cons]
          simp [hset.1]
          omega
      | none =>
          have hset := setChild_absent cs c (addRunes (NewTrie (α := α)) s') hl
          have hempty := Size_addRunes_empty (α := α) s'
          simp only [addRunes, walk, Trie.children, hl, Option.getD, Size, List.length_cons]
          rw [hset, SizeList_append]
          simp [SizeList, hempty]
          omega

theorem walk_addRunes_empty {α : Type} :
    ∀ (s1 s2 : List Char), walk (addRunes (NewTrie (α := α)) s1) s2 = lcpLength s1 s2
  | [], s2 => by
      cases s2 with
      | nil => simp [NewTrie, addRunes, walk, lcpLength]
      | cons b r2 => simp [NewTrie, addRunes, walk, Trie.children, lookupChild, lcpLength]
  | a :: r1, s2 => by
      cases s2 with
      | nil => simp [walk, lcpLength]
      | cons b r2 =>
          simp only [NewTrie, addRunes, lookupChild, setChild, Option.getD,
            walk, Trie.children, lcpLength]
          by_cases hab : a = b
          · subst hab
            have ih := walk_addRunes_empty (α := α) r1 r2
            simp only [NewTrie] at ih
            simp [ih]
          · simp [hab, Ne.symm hab]

mutual

theorem Size_totalNodes {α : Type} : ∀ (t : Trie α), Size t + 1 = totalNodes t
  | .node l v cs => by
      have h := SizeList_totalNodesList (α := α) cs
      simp only [Size, totalNodes]
      omega

theorem SizeList_totalNodesList {α : Type} :
    ∀ (cs : List (Char × Trie α)), SizeList cs + cs.length = totalNodesList cs
  | [] => by simp [SizeList, totalNodesList]
  | (c, t) :: rest => by
      have h1 := Size_totalNodes t
      have h2 := SizeList_totalNodesList rest
      simp only [SizeList, totalNodesList, List.length_cons]
      omega

end

theorem Size_eq_nodesBelowRoot {α : Type} (t : Trie α) : Size t = nodesBelowRoot t := by
  obtain ⟨l, v, cs⟩ := t
  have := SizeList_totalNodesList cs
  simp only [Size, nodesBelowRoot, Trie.children]
  omega

/-! Frame lemmas for the weighted trie: pattern insertion never changes
the weight already stored on an existing node. -/

theorem VTrie.lookupChild_setChild_hit (cs : List (Char × VTrie)) (c : Char) (n : VTrie) :
    VTrie.lookupChild (VTrie.setChild cs c n) c = some n := by
  induction cs with
  | nil => simp [VTrie.setChild, VTrie.lookupChild]
  | cons p rest ih =>
      obtain ⟨k, t⟩ := p
      by_cases h : k = c <;> simp [VTrie.setChild, VTrie.lookupChild, h, ih]

theorem VTrie.lookupChild_setChild_miss (cs : List (Char × VTrie)) (a c : Char) (n : VTrie)
    (hne : a ≠ c) :
    VTrie.lookupChild (VTrie.setChild cs c n) a = VTrie.lookupChild cs a := by
  induction cs with
  | nil => simp [VTrie.setChild, VTrie.lookupChild, Ne.symm hne]
  | cons p rest ih =>
      obtain ⟨k, t⟩ := p
      by_cases h : k = c
      · subst h
        simp [VTrie.setChild, VTrie.lookupChild, Ne.symm hne]
      · by_cases h2 : k = a <;> simp [VTrie.setChild, VTrie.lookupChild, h, h2, ih, hne]

theorem VTrie.nodeAt_addRunes_value :
    ∀ (p : List Char) (t : VTrie) (s : List Char) (ws : List Int) (n : VTrie),
      VTrie.nodeAt t p = some n →
      ∃ n', VTrie.nodeAt (VTrie.addRunes t s ws) p = some n' ∧ n'.value = n.value
  | [], t, s, ws, n => by
      intro h
      obtain ⟨l, v, cs⟩ := t
      simp only [VTrie.nodeAt, Option.some.injEq] at h
      cases s with
      | nil =>
          exact ⟨.node true v cs, by simp [VTrie.addRunes, VTrie.nodeAt],
            by simp [← h, VTrie.value]⟩
      | cons c s' =>
          simp only [VTrie.addRunes]
          cases VTrie.lookupChild cs c with
          | some m =>
              exact ⟨.node l v (VTrie.setChild cs c (VTrie.addRunes m s' (chanRead ws).2)),
                by simp [VTrie.nodeAt], by simp [← h, VTrie.value]⟩
          | none =>
              exact ⟨.node l v (VTrie.setChild cs c
                  (VTrie.addRunes (.node false (chanRead ws).1 []) s' (chanRead ws).2)),
                by simp [VTrie.nodeAt], by simp [← h, VTrie.value]⟩
  | a :: p', t, s, ws, n => by
      intro h
      obtain ⟨l, v, cs⟩ := t
      simp only [VTrie.nodeAt, VTrie.children] at h
      cases hl : VTrie.lookupChild cs a with
      | none => simp [hl] at h
      | some child =>
          rw [hl] at h
          simp only at h
          cases s with
          | nil =>
              exact ⟨n, by simp [VTrie.addRunes, VTrie.nodeAt, VTrie.children, hl, h],
                rfl⟩
          | cons c s' =>
              by_cases hac : a = c
              · subst hac
                have ⟨n', hn', hv⟩ :=
                  VTrie.nodeAt_addRunes_value p' child s' (chanRead ws).2 n h
                refine ⟨n', ?_, hv⟩
                simp only [VTrie.addRunes, hl, VTrie.nodeAt, VTrie.children]
                rw [VTrie.lookupChild_setChild_hit]
                simpa using hn'
              · refine ⟨n, ?_, rfl⟩
                simp only [VTrie.addRunes]
                cases hlc : VTrie.lookupChild cs c <;>
                · simp only [VTrie.nodeAt, VTrie.children]
                  rw [VTrie.lookupChild_setChild_miss _ _ _ _ hac, hl]
                  simpa using h

/-- C1: the claim fails on the code.  `removeRunes` prunes a child as soon
as the child reports an empty child map, never consulting the child's
leaf flag.  Left conjunct: inserting `a` and `ab` and removing `ab`
prunes the node of the still-stored member `a`, so `Contains(a)` flips to
false.  Right conjunct: removing the non-member `abc` from a trie holding
only `ab` is not a no-op — the node of `ab` has no children, so the
ancestor chain is pruned and the stored member `ab` is destroyed. -/
theorem C1_remove_prune_bug :
    (Contains (AddString (AddString (NewTrie (α := Nat)) "a".toList) "ab".toList)
        "a".toList = true ∧
      Contains (Remove (AddString (AddString (NewTrie (α := Nat)) "a".toList) "ab".toList)
        "ab".toList).1 "a".toList = false) ∧
    (Contains (AddString (NewTrie (α := Nat)) "ab".toList) "abc".toList = false ∧
      Contains (Remove (AddString (NewTrie (α := Nat)) "ab".toList) "abc".toList).1
        "ab".toList = false) := by
  decide

/-- C2: the claim fails on the code.  `AllSubstrings` appends `s[0:pos]`,
the query up to but excluding the matched rune: with only `hyph` stored,
`AllSubstrings("hyphenation")` returns `["hyp"]`, which is not a member
of the trie, instead of the claimed `["hyph"]`. -/
theorem C2_allsubstrings_bug :
    AllSubstrings (AddString (NewTrie (α := Nat)) "hyph".toList) "hyphenation".toList
        = ["hyp".toList] ∧
      Contains (AddString (NewTrie (α := Nat)) "hyph".toList) "hyp".toList = false ∧
      Contains (AddString (NewTrie (α := Nat)) "hyph".toList) "hyph".toList = true := by
  decide

/-- C3: decoding the pattern `hy3phe2n5a4t2io2n` into an empty weighted
trie stores the pure string `hyphenation` and puts weight 0,3,0,0,2,5,4,2,0,2,0
on the nodes reached by its successive characters (the final 0 comes from
the weight channel being exhausted — a read from the closed channel
yields the zero value), so reading the per-node weights back along the
stored path yields exactly that sequence. -/
theorem C3_pattern_roundtrip :
    VTrie.getWeights (VTrie.AddPatternString NewValueTrie "hy3phe2n5a4t2io2n".toList)
      "hyphenation".toList = some [0, 3, 0, 0, 2, 5, 4, 2, 0, 2, 0] := by
  decide

/-- C4: the claim fails on the code.  `AllSubstringsAndValues` appends
`s[0:pos+utf8.RuneLen(rune)]` (match including the matched rune) while
`AllSubstrings` appends `s[0:pos]` (match excluding it), so with `hyph`
stored and query `hyphenation` the first component is `["hyph"]` while
`AllSubstrings` returns `["hyp"]` — the two sequences are not equal. -/
theorem C4_components_mismatch :
    (AllSubstringsAndValues (AddString (NewTrie (α := Nat)) "hyph".toList)
        "hyphenation".toList).1 = ["hyph".toList] ∧
      AllSubstrings (AddString (NewTrie (α := Nat)) "hyph".toList)
        "hyphenation".toList = ["hyp".toList] := by
  decide

/-- C5: the claim fails on the code.  The weight-emitting loop of
`AddPatternString` skips every digit rune outright, so a digit preceding
the first character is never emitted into the weight channel: decoding
`5emnix` emits weights `[0,0,0,0]` for pure string `emnix`, and the node
reached by the first character `e` carries weight 0, not the leading 5. -/
theorem C5_leading_digit_dropped :
    pureChars "5emnix".toList = "emnix".toList ∧
      patternWeights "5emnix".toList = [0, 0, 0, 0] ∧
      (VTrie.nodeAt (VTrie.AddPatternString NewValueTrie "5emnix".toList)
        "e".toList).map VTrie.value = some 0 := by
  decide

/-- C6 counterexample: for s1 = `ab`, s2 = `ac` (longest common prefix
length k = 1) the trie holds 3 nodes, but the claimed formula
len(s1)+len(s2)-2k gives 2. -/
theorem C6_cex :
    Size (AddString (AddString (NewTrie (α := Nat)) "ab".toList) "ac".toList) = 3 ∧
      "ab".toList.length + "ac".toList.length
        - 2 * lcpLength "ab".toList "ac".toList = 2 := by
  decide

/-- C6 (amended): `Size()` equals the number of distinct nodes strictly
below the root (the root itself is never counted), and inserting two
non-empty strings with longest common prefix of length k into an empty
trie yields `Size() == len(s1)+len(s2)-k` (rune counts). -/
theorem C6_size_amended {α : Type} (t : Trie α) (s1 s2 : List Char)
    (h1 : s1 ≠ []) (h2 : s2 ≠ []) :
    Size t = nodesBelowRoot t ∧
    Size (AddString (AddString (NewTrie (α := α)) s1) s2)
      = s1.length + s2.length - lcpLength s1 s2 := by
  refine ⟨Size_eq_nodesBelowRoot t, ?_⟩
  simp only [AddString, if_neg h1, if_neg h2]
  have hs := Size_addRunes s2 (addRunes (NewTrie (α := α)) s1)
  have hw := walk_addRunes_empty (α := α) s1 s2
  have h0 := Size_addRunes_empty (α := α) s1
  omega

/-- Witness for C6_size_amended at t = empty, s1 = `ab`, s2 = `ac`. -/
theorem C6_size_amended_witness :
    Size (NewTrie (α := Nat)) = nodesBelowRoot (NewTrie (α := Nat)) ∧
    Size (AddString (AddString (NewTrie (α := Nat)) "ab".toList) "ac".toList)
      = "ab".toList.length + "ac".toList.length - lcpLength "ab".toList "ac".toList :=
  C6_size_amended (NewTrie (α := Nat)) "ab".toList "ac".toList (by decide) (by decide)

/-- C7: for every trie state and non-empty string s, after `AddString(s)`
the trie contains s and s appears in `Members()`. -/
theorem C7_insert_membership {α : Type} (t : Trie α) (s : List Char) (h : s ≠ []) :
    Contains (AddString t s) s = true ∧ s ∈ Members (AddString t s) := by
  obtain ⟨n, hn⟩ := includes_addRunes_self s t
  constructor
  · simp [Contains, AddString, h, hn]
  · have hm := mem_buildMembers_of_includes s (addRunes t s) [] n hn
    simp only [List.nil_append] at hm
    simp only [Members, AddString, if_neg h, mem_sortStrings]
    exact hm

/-- Witness for C7_insert_membership at t = empty, s = `hi`. -/
theorem C7_insert_membership_witness :
    Contains (AddString (NewTrie (α := Nat)) "hi".toList) "hi".toList = true ∧
    "hi".toList ∈ Members (AddString (NewTrie (α := Nat)) "hi".toList) :=
  C7_insert_membership (NewTrie (α := Nat)) "hi".toList (by decide)

/-- C8: every public operation is total (all the embedded operations are
total Lean functions); on the empty string `AddString` and `AddValue`
return the trie unchanged, `Contains` returns false, `GetValue` reports
absence, and `Remove` returns whether the root has no children without
mutating the trie; the empty trie has size 0, no members, and contains no
query string. -/
theorem C8_totality_empty {α : Type} (t : Trie α) (v : α) (q : List Char) :
    AddString t [] = t ∧ AddValue t [] v = t ∧ Contains t [] = false ∧
    GetValue t [] = (none, false) ∧ Remove t [] = (t, t.children.isEmpty) ∧
    Size (NewTrie (α := α)) = 0 ∧ Members (NewTrie (α := α)) = [] ∧
    Contains (NewTrie (α := α)) q = false := by
  refine ⟨by simp [AddString], by simp [AddValue], by simp [Contains],
    by simp [GetValue], by simp [Remove], by simp [NewTrie, Size, SizeList],
    by simp [Members, NewTrie, buildMembers, buildMembersList, sortStrings], ?_⟩
  cases q with
  | nil => simp [Contains]
  | cons c rest => simp [Contains, includes, NewTrie, Trie.children, lookupChild]

/-- C9: insertion never removes or alters existing entries — after
`AddString(s)` or `AddValue(s, v)` every string contained before is still
contained, and for every contained string w distinct from s the result of
`GetValue(w)` is unchanged. -/
theorem C9_insert_frame {α : Type} (t : Trie α) (s w : List Char) (v : α)
    (hw : Contains t w = true) :
    Contains (AddString t s) w = true ∧ Contains (AddValue t s v) w = true ∧
    (w ≠ s →
      GetValue (AddString t s) w = GetValue t w ∧
      GetValue (AddValue t s v) w = GetValue t w) := by
  by_cases hs : s = []
  · subst hs
    simp [AddString, AddValue, hw]
  · by_cases hwnil : w = []
    · simp [Contains, hwnil] at hw
    · have hex : ∃ n, includes t w = some n := by
        simp only [Contains, if_neg hwnil, Option.isSome_iff_exists] at hw
        exact hw
      obtain ⟨n, hn⟩ := hex
      obtain ⟨n1, hn1, hv1⟩ := includes_addRunes_frame w s t n hn
      obtain ⟨n2, hn2, hv2⟩ := includes_addRunesValue_frame v w s t n hn
      refine ⟨?_, ?_, ?_⟩
      · simp [Contains, AddString, hs, hwnil, hn1]
      · simp [Contains, AddValue, hs, hwnil, hn2]
      · intro hne
        constructor
        · simp [GetValue, AddString, hs, hwnil, hn1, hn, hv1 hne]
        · simp [GetValue, AddValue, hs, hwnil, hn2, hn, hv2 hne]

/-- Witness for C9_insert_frame: the trie holds `ab`; inserting `a` (by
string and by value) keeps `ab` contained and leaves its value pair
untouched. -/
theorem C9_insert_frame_witness :
    Contains (AddString (AddString (NewTrie (α := Nat)) "ab".toList) "a".toList)
        "ab".toList = true ∧
      Contains (AddValue (AddString (NewTrie (α := Nat)) "ab".toList) "a".toList 7)
        "ab".toList = true ∧
      ("ab".toList ≠ "a".toList →
        GetValue (AddString (AddString (NewTrie (α := Nat)) "ab".toList) "a".toList)
            "ab".toList
          = GetValue (AddString (NewTrie (α := Nat)) "ab".toList) "ab".toList ∧
        GetValue (AddValue (AddString (NewTrie (α := Nat)) "ab".toList) "a".toList 7)
            "ab".toList
          = GetValue (AddString (NewTrie (α := Nat)) "ab".toList) "ab".toList) :=
  C9_insert_frame (AddString (NewTrie (α := Nat)) "ab".toList) "a".toList "ab".toList 7
    (by decide)

/-- C10: `AddPatternString` assigns a weight only to freshly created
nodes, so every node reachable before the insertion is still reachable
afterwards with its stored weight unchanged — a later pattern that gives
a different weight to a shared-prefix position does not overwrite the
earlier weight. -/
theorem C10_pattern_weight_frame (t : VTrie) (s p : List Char) (n : VTrie)
    (h : VTrie.nodeAt t p = some n) :
    ∃ n', VTrie.nodeAt (VTrie.AddPatternString t s) p = some n' ∧
      VTrie.value n' = VTrie.value n :=
  VTrie.nodeAt_addRunes_value p t (pureChars s) (patternWeights s) n h

/-- Witness for C10_pattern_weight_frame: `vt10` stores pattern `he2n`
(node `he` carries weight 2); inserting the pattern `h1e1n1a`, which
gives the shared position `e` the different weight 1, leaves the weight
at `he` unchanged. -/
theorem C10_pattern_weight_frame_witness :
    ∃ n', VTrie.nodeAt (VTrie.AddPatternString vt10 "h1e1n1a".toList) "he".toList
        = some n' ∧
      VTrie.value n' = VTrie.value vnode10 :=
  C10_pattern_weight_frame vt10 "h1e1n1a".toList "he".toList vnode10 (by rfl)

